import Mathlib

/-!
# Verification of the xcp_d BOLD post-processing core

Shallow embedding of the temporal signal-conditioning pipeline assembled in
`xcp_d/workflows/bold.py` (`init_boldpostprocess_wf` and `_create_mem_gb`),
together with spec-modelled definitions for the stage interfaces whose
implementations live outside the provided sources (`CensorScrub`, `Regress`,
`Interpolate`, `FilteringData`, `DespikePatch`, `RemoveTR`).

Machine floats are modelled as rationals; file sizes and frame counts are
rationals / naturals.
-/

namespace XcpD

/-! ## Memory estimation (`_create_mem_gb`, bold.py lines 769-785)

`bold_size_gb` is the BOLD file size in GiB, `bold_tlen` the number of frames
(the last dimension of the image). The Python computes
`bold_size_gb * (max(bold_tlen / 100, 1.0) + 4)` and then clamps: values below
4.0 are replaced by 6.0 (with `resampled` forced to 2), values above 8.0 are
replaced by 8.0 (with `resampled` forced to 3). -/

structure MemGb where
  derivative : ℚ
  resampled : ℚ
  timeseries : ℚ
deriving DecidableEq, Repr

/-- Raw (pre-clamp) timeseries memory estimate from `_create_mem_gb`. -/
def rawTimeseriesMem (bold_size_gb : ℚ) (bold_tlen : ℚ) : ℚ :=
  bold_size_gb * (max (bold_tlen / 100) 1 + 4)

/-- `_create_mem_gb` from bold.py, with the file-system reads
(`os.path.getsize`, `nb.load(...).shape[-1]`) abstracted into the two
arguments they produce. -/
def createMemGb (bold_size_gb : ℚ) (bold_tlen : ℚ) : MemGb :=
  let mem_gbz : MemGb :=
    { derivative := bold_size_gb
      resampled := bold_size_gb * 4
      timeseries := rawTimeseriesMem bold_size_gb bold_tlen }
  if mem_gbz.timeseries < 4 then
    { mem_gbz with timeseries := 6, resampled := 2 }
  else if mem_gbz.timeseries > 8 then
    { mem_gbz with timeseries := 8, resampled := 3 }
  else
    mem_gbz

/-! ## Dummy-scan resolution (bold.py lines 222-223 and the
`if dummy_scans:` gate at line 491)

`dummy_scans` is either an integer or the string `"auto"`.  The Python code
runs
```
if dummy_scans == 0 and dummytime != 0:
    dummy_scans = int(np.ceil(dummytime / TR))
```
(`"auto" == 0` is `False` in Python, so the branch only fires on the integer
`0`), and later gates the `RemoveTR` node on the truthiness of `dummy_scans`:
a nonzero integer or the nonempty string `"auto"` enables trimming, the
integer `0` disables it. -/

inductive DummyScansSetting where
  | fixed (n : ℤ)
  | auto
deriving DecidableEq, Repr

/-- Lines 222-223 of bold.py: convert a `dummytime` (seconds) into a frame
count when `dummy_scans == 0` and `dummytime != 0`. -/
def resolveDummyScans (setting : DummyScansSetting) (dummytime TR : ℚ) :
    DummyScansSetting :=
  match setting with
  | .fixed n =>
      if n = 0 ∧ dummytime ≠ 0 then .fixed ⌈dummytime / TR⌉ else .fixed n
  | .auto => .auto

/-- Python truthiness of `dummy_scans` (the `if dummy_scans:` gate at
line 491): a nonzero integer or the string `"auto"` is truthy. -/
def trimEnabled : DummyScansSetting → Bool
  | .fixed n => n ≠ 0
  | .auto => true

/-! ## Workflow-graph structure (`init_boldpostprocess_wf`)

The core signal path wired by `workflow.connect` calls in bold.py:

* `downcast_data → remove_dummy_scans → censoring` when `dummy_scans` is
  truthy, else `downcast_data → censoring` (lines 490-541);
* `censoring → despike3d → regression_wf` when `despike`, else
  `censoring → regression_wf` (lines 554-581);
* `regression_wf → interpolation_wf → filtering_wf` (lines 590-602).

Auxiliary forward edges: `censoring → regression_wf` (censored confounds,
line 586) and `censoring → interpolation_wf` (the temporal mask, line 595). -/

inductive Stage where
  | inputS
  | trimS
  | censorS
  | despikeS
  | regressS
  | interpS
  | filterS
deriving DecidableEq, Repr, Fintype

/-- Position of each stage in the documented pipeline order. -/
def stageIndex : Stage → ℕ
  | .inputS => 0
  | .trimS => 1
  | .censorS => 2
  | .despikeS => 3
  | .regressS => 4
  | .interpS => 5
  | .filterS => 6

/-- The main BOLD-signal dataflow edges of `init_boldpostprocess_wf`, as a
function of the two boolean gates (`dummy_scans` truthiness and `despike`)
evaluated once when the workflow is built. -/
def boldPathEdges (dummy despike : Bool) : List (Stage × Stage) :=
  (if dummy then [(.inputS, .trimS), (.trimS, .censorS)]
   else [(.inputS, .censorS)]) ++
  (if despike then [(.censorS, .despikeS), (.despikeS, .regressS)]
   else [(.censorS, .regressS)]) ++
  [(.regressS, .interpS), (.interpS, .filterS)]

/-- Auxiliary forward edges: the censored confounds fed to the regression
node and the temporal mask fed to the interpolation node. -/
def auxEdges : List (Stage × Stage) :=
  [(.censorS, .regressS), (.censorS, .interpS)]

/-- The sequence of core stages present in a run, per the gates. The
band-pass node `filtering_wf` is always instantiated; its skip is the
`bandpass_filter` flag passed into the node (bold.py line 402). -/
def coreChain (dummy despike : Bool) : List Stage :=
  [.inputS] ++ (if dummy then [.trimS] else []) ++ [.censorS] ++
    (if despike then [.despikeS] else []) ++ [.regressS, .interpS, .filterS]

/-- Every two consecutive stages of the list are connected by an edge of
`edges`. -/
def isChainIn (edges : List (Stage × Stage)) : List Stage → Bool
  | a :: b :: rest => edges.contains (a, b) && isChainIn edges (b :: rest)
  | _ => true

/-! ## Censoring, trimming and despiking

`CensorScrub`, `RemoveTR` and `DespikePatch` are imported interfaces whose
implementations are not among the provided sources; their internals are
modelled from the spec (§4.3, §2 stage 2, §4.4). What IS in the sources is
how `init_boldpostprocess_wf` wires them together, and that wiring is
transcribed exactly: dummy-scan trimming runs before censoring (lines
490-541), and despiking consumes `bold_censored`, the censored BOLD series
(line 571). -/

/-- Six motion channels: three translations (mm) and three rotations
(radians). -/
structure MotionParams where
  transX : ℚ
  transY : ℚ
  transZ : ℚ
  rotX : ℚ
  rotY : ℚ
  rotZ : ℚ
deriving DecidableEq, Repr

/-- Modelled from the spec (§4.3): framewise displacement between two
consecutive frames is the sum of absolute differences across the six motion
channels, rotations scaled to displacement by the head radius. -/
def frameDisplacement (radius : ℚ) (p q : MotionParams) : ℚ :=
  |q.transX - p.transX| + |q.transY - p.transY| + |q.transZ - p.transZ| +
    radius * (|q.rotX - p.rotX| + |q.rotY - p.rotY| + |q.rotZ - p.rotZ|)

/-- Displacements of the second and later frames, each relative to its
predecessor. -/
def fdSeriesAux (radius : ℚ) : MotionParams → List MotionParams → List ℚ
  | _, [] => []
  | p, q :: rest => frameDisplacement radius p q :: fdSeriesAux radius q rest

/-- Modelled from the spec (§4.3): the framewise-displacement trace; the
first frame's displacement is defined as zero. -/
def fdSeries (radius : ℚ) : List MotionParams → List ℚ
  | [] => []
  | p :: rest => 0 :: fdSeriesAux radius p rest

/-- Modelled from the spec (§4.3): the `CensorScrub` mask, one Boolean per
frame, `true` = retained; frames whose displacement is at or above the
threshold are censored. Its only inputs (per the node wiring in bold.py,
lines 374-386 and 543-552) are the motion confounds, TR, the motion-filter
parameters, the head radius and the threshold — no non-steady-state flag
reaches this node. -/
def censorScrubMask (radius thresh : ℚ) (motion : List MotionParams) :
    List Bool :=
  (fdSeries radius motion).map (fun f => decide (f < thresh))

/-- Row selection by the censoring mask (`true` = keep). This is how
`CensorScrub` produces `bold_censored` and `confounds_censored`. -/
def censorSeries {α : Type} (mask : List Bool) (xs : List α) : List α :=
  ((mask.zip xs).filter (fun p => p.1)).map (fun p => p.2)

/-- Per-run tables whose frame counts must stay aligned. -/
structure RunTables where
  bold : List (List ℚ)
  confounds : List (List ℚ)
  motion : List MotionParams
deriving DecidableEq, Repr

/-- Modelled from the spec (§2 stage 2): `RemoveTR` drops the same number of
leading frames from the BOLD data, the consolidated confounds and the
fMRIPrep motion confounds (the three inputs wired into `remove_dummy_scans`
at bold.py lines 499-509). -/
def removeTR (n : ℕ) (st : RunTables) : RunTables :=
  { bold := st.bold.drop n
    confounds := st.confounds.drop n
    motion := st.motion.drop n }

/-- Error taxonomy of spec §7 (the members the claims exercise). -/
inductive PipelineError where
  | validationError (cutoff nyquistLimit : ℚ)
  | shapeMismatch (frames rows : ℕ)
  | insufficientData (kept : ℕ)
deriving DecidableEq, Repr

/-- Frame-count precondition (spec §3): the signal's frame count must equal
the confound table's row count; violation is fatal. -/
def checkFrameInvariant (st : RunTables) : Except PipelineError Unit :=
  if st.bold.length = st.confounds.length then Except.ok ()
  else Except.error (.shapeMismatch st.bold.length st.confounds.length)

/-- The run's censoring mask as the workflow produces it: the dummy-scan
trimmer drops `d` leading frames from the motion confounds first
(`remove_dummy_scans → censoring`, bold.py lines 510-516), then
`CensorScrub` builds the mask from the frames that remain. -/
def runCensoringMask (d : ℕ) (radius thresh : ℚ)
    (motion : List MotionParams) : List Bool :=
  censorScrubMask radius thresh (motion.drop d)

/-- Modelled from the spec (§4.4): `DespikePatch` (AFNI 3dDespike) clips
temporal outlier amplitudes sample-wise; modelled as clamping each sample
into `[-c, c]`. The verified properties use only that it is amplitude-only
and frame-count preserving. -/
def despikeClip (c : ℚ) : List ℚ → List ℚ
  | [] => []
  | x :: rest => max (-c) (min c x) :: despikeClip c rest

/-- The despike stage as wired in bold.py line 571: its input is
`bold_censored`, the output of `CensorScrub`, not the raw series. One
spatial unit shown; the clip applies frame-wise. -/
def despikeStage (c : ℚ) (mask : List Bool) (raw : List ℚ) : List ℚ :=
  despikeClip c (censorSeries mask raw)

/-- One forward pass of a first-order recursive smoother with coefficient
`a`, carrying the previous output sample. -/
def smoothForward (a : ℚ) : ℚ → List ℚ → List ℚ
  | _, [] => []
  | prev, x :: rest =>
    let y := prev + a * (x - prev)
    y :: smoothForward a y rest

/-- Zero-phase application: forward pass, then the same pass over the
reversed output, undoing the phase shift. -/
def lowpassPass (a : ℚ) (x : List ℚ) : List ℚ :=
  let fwd := smoothForward a (x.headD 0) x
  (smoothForward a (fwd.reverse.headD 0) fwd.reverse).reverse

/-- Rational smoothing coefficient standing in for the analog cutoff `f` at
sampling interval `TR`. -/
def alphaCoeff (TR f : ℚ) : ℚ := (2 * TR * f) / (1 + 2 * TR * f)

/-- Modelled from the spec (§4.7): the Butterworth band-pass kernel inside
`FilteringData` is not among the sources, and true Butterworth coefficients
need transcendental functions, so over ℚ the kernel is modelled as an
order-iterated zero-phase recursive-smoother band-pass (low-pass at the
upper cutoff minus low-pass at the lower cutoff). The claim verified against
it concerns only the explicit gating flag, not the frequency response. -/
def butterworthBandpass (TR lowpass highpass : ℚ) (filter_order : ℕ)
    (x : List ℚ) : List ℚ :=
  (fun v => (lowpassPass (alphaCoeff TR lowpass) v).zipWith (· - ·)
    (lowpassPass (alphaCoeff TR highpass) v))^[filter_order] x

/-- Modelled from the spec (§4.7): the `FilteringData` node. The
`bandpass_filter` flag is passed into the node explicitly by the workflow
(bold.py line 402); when it is false the stage is a pass-through, and the
cutoff values are never consulted to decide skipping. -/
def filteringData (bandpass_filter : Bool) (TR lowpass highpass : ℚ)
    (filter_order : ℕ) (x : List ℚ) : List ℚ :=
  if bandpass_filter then
    butterworthBandpass TR lowpass highpass filter_order x
  else x

/-! ## Regression engine

`Regress` is an imported interface; its implementation is not among the
sources. Modelled from the spec (§4.5): an ordinary-least-squares fit of the
design matrix against the signal over the retained frames, with the solution
of the normal equations written through the adjugate so it stays executable
over ℚ. The workflow feeds it `bold_censored` and `confounds_censored`
(bold.py lines 571-586), so frame selection by the mask happens through
`censorSeries` before the fit. -/

/-- The normal matrix `Xᵀ X` of a design matrix `X` (rows = retained
frames, columns = regressors). -/
def normalMatrix {m k : ℕ} (X : Matrix (Fin m) (Fin k) ℚ) :
    Matrix (Fin k) (Fin k) ℚ :=
  X.transpose * X

/-- OLS coefficients: the normal-equation solution
`(Xᵀ X)⁻¹ Xᵀ y`, with the inverse written via the adjugate. -/
def olsBeta {m k : ℕ} (X : Matrix (Fin m) (Fin k) ℚ) (y : Fin m → ℚ) :
    Fin k → ℚ :=
  (((normalMatrix X).det)⁻¹ • (normalMatrix X).adjugate).mulVec
    (X.transpose.mulVec y)

/-- OLS residual of one spatial unit's signal over the retained frames. -/
def olsResidual {m k : ℕ} (X : Matrix (Fin m) (Fin k) ℚ) (y : Fin m → ℚ) :
    Fin m → ℚ :=
  y - X.mulVec (olsBeta X y)

/-! ## Interpolator

`Interpolate` is an imported interface; its implementation is not among the
sources. Modelled from the spec (§4.6): the censored-frame residual is
re-expanded to the full frame count, retained slots receiving the residual
values in order, and each censored slot estimated by linear interpolation
between the nearest retained neighbours (nearest retained value at the
edges). -/

/-- Lay the censored residual out over the full frame axis: a retained slot
(`true`) consumes the next residual value, a censored slot is a gap. -/
def expandResidual : List Bool → List ℚ → List (Option ℚ)
  | [], _ => []
  | true :: ms, v :: vs => some v :: expandResidual ms vs
  | true :: ms, [] => none :: expandResidual ms []
  | false :: ms, vs => none :: expandResidual ms vs

/-- Nearest filled slot at or before position `i`. -/
def findPrevKept (l : List (Option ℚ)) : ℕ → Option (ℕ × ℚ)
  | 0 => (l.getD 0 none).map (fun v => (0, v))
  | i + 1 =>
    match l.getD (i + 1) none with
    | some v => some (i + 1, v)
    | none => findPrevKept l i

/-- Scan upward from position `i` with explicit fuel. -/
def findNextKeptAux (l : List (Option ℚ)) : ℕ → ℕ → Option (ℕ × ℚ)
  | 0, _ => none
  | fuel + 1, i =>
    match l.getD i none with
    | some v => some (i, v)
    | none => findNextKeptAux l fuel (i + 1)

/-- Nearest filled slot at or after position `i`. -/
def findNextKept (l : List (Option ℚ)) (i : ℕ) : Option (ℕ × ℚ) :=
  findNextKeptAux l (l.length - i) i

/-- Value of the reconstructed series at frame `i`: the residual value on a
retained slot, the linear interpolation between the nearest retained
neighbours on a censored slot (nearest single neighbour at the edges). -/
def interpAt (l : List (Option ℚ)) (i : ℕ) : ℚ :=
  match l.getD i none with
  | some v => v
  | none =>
    match findPrevKept l i, findNextKept l i with
    | some (j, a), some (j2, b) =>
      a + (b - a) * (((i : ℚ) - (j : ℚ)) / ((j2 : ℚ) - (j : ℚ)))
    | some (_, a), none => a
    | none, some (_, b) => b
    | none, none => 0

/-- The full-length interpolated series (spec §4.6): one value per frame of
the original mask. -/
def interpolateSeries (mask : List Bool) (resid : List ℚ) : List ℚ :=
  (List.range (expandResidual mask resid).length).map
    (fun i => interpAt (expandResidual mask resid) i)

/-- Nyquist frequency implied by the sampling interval. -/
def nyquistFreq (TR : ℚ) : ℚ := 1 / (2 * TR)

/-- Modelled from the spec (§4.2, §4.7, §8): the Nyquist validation shared
by the motion filter and the band-pass filter. A requested cutoff at or
above the Nyquist frequency raises a ValidationError naming both the
offending cutoff and the Nyquist limit; nothing is clamped. -/
def validateCutoffs (TR : ℚ) (cutoffs : List ℚ) : Except PipelineError Unit :=
  match cutoffs.find? (fun c => decide (nyquistFreq TR ≤ c)) with
  | some c => Except.error (.validationError c (nyquistFreq TR))
  | none => Except.ok ()

end XcpD

namespace XcpD

/-! ## Theorems for C9 and C10 -/

/-- **C9 counterexample.** The claim says a larger frame-count × size product
always yields a proportionally larger, not fixed-limit-capped, timeseries
estimate. But `_create_mem_gb` caps the estimate at 8.0 GB: the inputs
(10 GB, 200 frames) and (20 GB, 400 frames) have products 2000 and 8000 yet
identical timeseries estimates. -/
theorem createMemGb_capped_counterexample :
    (10 : ℚ) * 200 < 20 * 400 ∧
      (createMemGb 10 200).timeseries = (createMemGb 20 400).timeseries := by
  constructor
  · norm_num
  · norm_num [createMemGb, rawTimeseriesMem]

/-- **C9 (amended).** The timeseries estimate is the raw product-scaling
formula `size * (max (tlen/100) 1 + 4)` clamped: raised to a fixed 6 GB when
below 4 GB and capped at a fixed 8 GB when above 8 GB. It is monotone in the
raw estimate only on the uncapped band (raw ≥ 4), and it never exceeds 8 GB
no matter how large the frame-count × size product grows. -/
theorem createMemGb_clamped_monotone (s t s' t' : ℚ)
    (h1 : 4 ≤ rawTimeseriesMem s t)
    (h2 : rawTimeseriesMem s t ≤ rawTimeseriesMem s' t') :
    (createMemGb s t).timeseries ≤ (createMemGb s' t').timeseries ∧
      (createMemGb s' t').timeseries ≤ 8 := by
  unfold createMemGb
  simp only
  have h1' : ¬ rawTimeseriesMem s t < 4 := not_lt.mpr h1
  have h2' : ¬ rawTimeseriesMem s' t' < 4 := not_lt.mpr (le_trans h1 h2)
  rw [if_neg h1', if_neg h2']
  by_cases hc : rawTimeseriesMem s t > 8
  · have hc' : rawTimeseriesMem s' t' > 8 := lt_of_lt_of_le hc h2
    rw [if_pos hc, if_pos hc']
    exact ⟨le_refl 8, le_refl 8⟩
  · rw [if_neg hc]
    by_cases hc' : rawTimeseriesMem s' t' > 8
    · rw [if_pos hc']
      exact ⟨not_lt.mp hc, le_refl 8⟩
    · rw [if_neg hc']
      exact ⟨h2, not_lt.mp hc'⟩

/-- Witness for `createMemGb_clamped_monotone` at (1 GB, 100 frames) and
(2 GB, 100 frames). -/
theorem createMemGb_clamped_monotone_witness :
    (createMemGb 1 100).timeseries ≤ (createMemGb 2 100).timeseries ∧
      (createMemGb 2 100).timeseries ≤ 8 :=
  createMemGb_clamped_monotone 1 100 2 100 (by norm_num [rawTimeseriesMem])
    (by norm_num [rawTimeseriesMem])

/-- **C10.** With `dummy_scans = 0` and a nonzero `dummytime`, the number of
frames to drop is `⌈dummytime / TR⌉`; the integer value 0 leaves the trimming
stage bypassed (the signal reaches censoring untrimmed, per the workflow
edges); and the `"auto"` setting always enables trimming. -/
theorem resolveDummyScans_spec (dummytime TR : ℚ) (ht : dummytime ≠ 0) :
    resolveDummyScans (.fixed 0) dummytime TR = .fixed ⌈dummytime / TR⌉ ∧
      trimEnabled (.fixed 0) = false ∧
      (∀ d : Bool, Stage.trimS ∉ coreChain (trimEnabled (.fixed 0)) d ∧
        (Stage.inputS, Stage.censorS) ∈ boldPathEdges (trimEnabled (.fixed 0)) d) ∧
      (∀ dt tr : ℚ, trimEnabled (resolveDummyScans .auto dt tr) = true) := by
  refine ⟨?_, by decide, ?_, fun dt tr => rfl⟩
  · simp [resolveDummyScans, ht]
  · intro d
    cases d <;> constructor <;> decide

/-- Witness for `resolveDummyScans_spec` at `dummytime = 1`, `TR = 2`. -/
theorem resolveDummyScans_spec_witness :
    resolveDummyScans (.fixed 0) 1 2 = .fixed ⌈(1 : ℚ) / 2⌉ ∧
      trimEnabled (.fixed 0) = false ∧
      (∀ d : Bool, Stage.trimS ∉ coreChain (trimEnabled (.fixed 0)) d ∧
        (Stage.inputS, Stage.censorS) ∈ boldPathEdges (trimEnabled (.fixed 0)) d) ∧
      (∀ dt tr : ℚ, trimEnabled (resolveDummyScans .auto dt tr) = true) :=
  resolveDummyScans_spec 1 2 (by norm_num)

/-- **C1.** For every setting of the run-start boolean gates, the core signal
path is the linear chain input → (trim?) → censor → (despike?) → regress →
interpolate → filter: consecutive chain stages are connected by wired edges,
no stage repeats (no re-entry), every main and auxiliary edge goes strictly
forward in the pipeline order, each optional stage appears iff its own gate is
set, and no core stage has two incoming or two outgoing main-path edges. -/
theorem pipeline_linear_forward (dummy despike : Bool) :
    isChainIn (boldPathEdges dummy despike) (coreChain dummy despike) = true ∧
    (coreChain dummy despike).Nodup ∧
    (∀ e ∈ boldPathEdges dummy despike ++ auxEdges,
      stageIndex e.1 < stageIndex e.2) ∧
    ((Stage.trimS ∈ coreChain dummy despike) ↔ dummy = true) ∧
    ((Stage.despikeS ∈ coreChain dummy despike) ↔ despike = true) ∧
    (∀ s : Stage,
      ((boldPathEdges dummy despike).countP (fun e => e.1 = s)) ≤ 1 ∧
      ((boldPathEdges dummy despike).countP (fun e => e.2 = s)) ≤ 1) := by
  cases dummy <;> cases despike <;> exact ⟨by decide, by decide, by decide,
    by decide, by decide, by decide⟩

/-! ## Supporting lemmas on the list-level stages -/

theorem despikeClip_length (c : ℚ) (xs : List ℚ) :
    (despikeClip c xs).length = xs.length := by
  induction xs with
  | nil => rfl
  | cons x rest ih => simp [despikeClip, ih]

theorem despikeClip_getD (c : ℚ) (xs : List ℚ) (i : ℕ) (hi : i < xs.length) :
    (despikeClip c xs).getD i 0 = max (-c) (min c (xs.getD i 0)) := by
  induction xs generalizing i with
  | nil => simp at hi
  | cons x rest ih =>
    cases i with
    | zero => simp [despikeClip]
    | succ j =>
      simp only [despikeClip, List.getD_cons_succ]
      exact ih j (by simpa using hi)

theorem censorSeries_cons_true {α : Type} (ms : List Bool) (x : α)
    (xs : List α) : censorSeries (true :: ms) (x :: xs) = x :: censorSeries ms xs := by
  simp [censorSeries]

theorem censorSeries_cons_false {α : Type} (ms : List Bool) (x : α)
    (xs : List α) : censorSeries (false :: ms) (x :: xs) = censorSeries ms xs := by
  simp [censorSeries]

theorem censorSeries_length {α : Type} (mask : List Bool) (xs : List α)
    (h : xs.length = mask.length) :
    (censorSeries mask xs).length = mask.count true := by
  induction mask generalizing xs with
  | nil => simp [censorSeries]
  | cons b ms ih =>
    cases xs with
    | nil => simp at h
    | cons x rest =>
      have h' : rest.length = ms.length := by simpa using h
      cases b with
      | true => simp [censorSeries_cons_true, ih rest h', List.count_cons]
      | false => simp [censorSeries_cons_false, ih rest h', List.count_cons]

theorem censorSeries_congr {α : Type} (mask : List Bool) (xs ys : List α)
    (d : α) (hx : xs.length = mask.length) (hy : ys.length = mask.length)
    (h : ∀ i, i < mask.length → mask.getD i false = true →
      xs.getD i d = ys.getD i d) :
    censorSeries mask xs = censorSeries mask ys := by
  induction mask generalizing xs ys with
  | nil =>
    cases xs <;> cases ys <;> simp_all [censorSeries]
  | cons b ms ih =>
    cases xs with
    | nil => simp at hx
    | cons x xrest =>
      cases ys with
      | nil => simp at hy
      | cons y yrest =>
        have hx' : xrest.length = ms.length := by simpa using hx
        have hy' : yrest.length = ms.length := by simpa using hy
        have htail : censorSeries ms xrest = censorSeries ms yrest := by
          apply ih xrest yrest hx' hy'
          intro i hi hm
          have := h (i + 1) (by simpa using hi) (by simpa using hm)
          simpa using this
        cases b with
        | true =>
          have hhead : x = y := by
            have := h 0 (by simp) (by simp)
            simpa using this
          rw [censorSeries_cons_true, censorSeries_cons_true, hhead, htail]
        | false =>
          rw [censorSeries_cons_false, censorSeries_cons_false, htail]

theorem fdSeriesAux_length (radius : ℚ) (p : MotionParams)
    (l : List MotionParams) : (fdSeriesAux radius p l).length = l.length := by
  induction l generalizing p with
  | nil => rfl
  | cons q rest ih => simp [fdSeriesAux, ih]

theorem fdSeries_length (radius : ℚ) (l : List MotionParams) :
    (fdSeries radius l).length = l.length := by
  cases l with
  | nil => rfl
  | cons p rest => simp [fdSeries, fdSeriesAux_length]

theorem expandResidual_length (mask : List Bool) (resid : List ℚ) :
    (expandResidual mask resid).length = mask.length := by
  induction mask generalizing resid with
  | nil => rfl
  | cons b ms ih =>
    cases b with
    | true =>
      cases resid with
      | nil => simp [expandResidual, ih]
      | cons v vs => simp [expandResidual, ih]
    | false => simp [expandResidual, ih]

theorem count_take_lt (mask : List Bool) (i : ℕ) (hi : i < mask.length)
    (hm : mask.getD i false = true) :
    (mask.take i).count true < mask.count true := by
  induction mask generalizing i with
  | nil => simp at hi
  | cons b ms ih =>
    cases i with
    | zero =>
      have hb : b = true := by simpa using hm
      subst hb
      simp [List.count_cons]
    | succ j =>
      have hj : j < ms.length := by simpa using hi
      have hmj : ms.getD j false = true := by simpa using hm
      have := ih j hj hmj
      simp [List.count_cons]
      omega

theorem expandResidual_getD_kept (mask : List Bool) (resid : List ℚ)
    (i : ℕ) (hi : i < mask.length) (hm : mask.getD i false = true)
    (hb : (mask.take i).count true < resid.length) :
    (expandResidual mask resid).getD i none =
      some (resid.getD ((mask.take i).count true) 0) := by
  induction mask generalizing i resid with
  | nil => simp at hi
  | cons b ms ih =>
    cases b with
    | true =>
      cases resid with
      | nil => simp at hb
      | cons v vs =>
        cases i with
        | zero => simp [expandResidual]
        | succ j =>
          have hj : j < ms.length := by simpa using hi
          have hmj : ms.getD j false = true := by simpa using hm
          have hbj : (ms.take j).count true < vs.length := by
            have : (List.take (j + 1) (true :: ms)).count true =
                (ms.take j).count true + 1 := by
              simp [List.count_cons]
            rw [this] at hb
            simpa using hb
          have hrec := ih vs j hj hmj hbj
          have hcount : (List.take (j + 1) (true :: ms)).count true =
              (ms.take j).count true + 1 := by
            simp [List.count_cons]
          rw [hcount]
          simpa [expandResidual] using hrec
    | false =>
      cases i with
      | zero => simp at hm
      | succ j =>
        have hj : j < ms.length := by simpa using hi
        have hmj : ms.getD j false = true := by simpa using hm
        have hbj : (ms.take j).count true < resid.length := by
          have : (List.take (j + 1) (false :: ms)).count true =
              (ms.take j).count true := by
            simp [List.count_cons]
          rw [this] at hb
          exact hb
        have hrec := ih resid j hj hmj hbj
        have hcount : (List.take (j + 1) (false :: ms)).count true =
            (ms.take j).count true := by
          simp [List.count_cons]
        rw [hcount]
        simpa [expandResidual] using hrec

theorem getD_map_range (n : ℕ) (f : ℕ → ℚ) (i : ℕ) (hi : i < n) :
    ((List.range n).map f).getD i 0 = f i := by
  have hlen : i < ((List.range n).map f).length := by simpa using hi
  rw [List.getD_eq_getElem _ _ hlen]
  simp

/-! ## Theorems for C4, C5, C6, C7 -/

/-- **C4 counterexample.** The claim says the despike stage's output does not
depend on the censoring mask. But bold.py line 571 wires `bold_censored`
into `despike3d`, so with the same raw series `[0, 10, 0]` the stage output
differs between an all-keep mask and a mask censoring the middle frame. -/
theorem despike_mask_dependence_counterexample :
    despikeStage 5 [true, true, true] [0, 10, 0] ≠
      despikeStage 5 [true, false, true] [0, 10, 0] := by
  intro h
  have hlen := congrArg List.length h
  rw [despikeStage, despikeStage, despikeClip_length, despikeClip_length]
    at hlen
  simp [censorSeries] at hlen

/-- **C4 (amended).** The despike stage runs after outlier censoring, on the
censored series (`bold_censored`): it preserves the frame count of its
censored input — which equals the number of mask-true frames, not the raw
frame count — and modifies amplitude only (each output sample is the clamp
of the corresponding censored input sample); its output therefore depends on
the censoring mask through its input. -/
theorem despike_censored_input (c : ℚ) (mask : List Bool) (raw : List ℚ)
    (hlen : raw.length = mask.length) :
    (despikeStage c mask raw).length = mask.count true ∧
      ∀ i, i < mask.count true →
        (despikeStage c mask raw).getD i 0 =
          max (-c) (min c ((censorSeries mask raw).getD i 0)) := by
  have hcl : (censorSeries mask raw).length = mask.count true :=
    censorSeries_length mask raw hlen
  refine ⟨?_, ?_⟩
  · rw [despikeStage, despikeClip_length, hcl]
  · intro i hi
    rw [despikeStage, despikeClip_getD]
    rw [hcl]
    exact hi

/-- Witness for `despike_censored_input` on a 3-frame run with the middle
frame censored. -/
theorem despike_censored_input_witness :
    (despikeStage 5 [true, false, true] [0, 10, 0]).length =
        ([true, false, true] : List Bool).count true ∧
      ∀ i, i < ([true, false, true] : List Bool).count true →
        (despikeStage 5 [true, false, true] [0, 10, 0]).getD i 0 =
          max (-5) (min 5 ((censorSeries [true, false, true]
            [0, 10, 0]).getD i 0)) :=
  despike_censored_input 5 [true, false, true] [0, 10, 0] (by simp)

/-- All-zero motion parameters. -/
def zeroMotion : MotionParams := ⟨0, 0, 0, 0, 0, 0⟩

/-- **C5 counterexample.** The claim says that with zero frames over the
motion threshold and 3 frames flagged non-steady-state, the output mask
censors exactly those 3 frames. In the wired pipeline the 3 flagged frames
are dropped by `remove_dummy_scans` before `CensorScrub` runs, so on a
6-frame run with zero motion the mask has length 3 and censors nothing. -/
theorem censoring_union_counterexample :
    ¬ ((runCensoringMask 3 50 (1 / 5)
        (List.replicate 6 zeroMotion)).count false = 3) ∧
      (runCensoringMask 3 50 (1 / 5)
        (List.replicate 6 zeroMotion)).length = 3 ∧
      (runCensoringMask 3 50 (1 / 5)
        (List.replicate 6 zeroMotion)).count false = 0 := by
  have hmask : runCensoringMask 3 50 (1 / 5) (List.replicate 6 zeroMotion) =
      [true, true, true] := by
    show censorScrubMask 50 (1 / 5) ((List.replicate 6 zeroMotion).drop 3) =
      [true, true, true]
    rw [show (List.replicate 6 zeroMotion).drop 3 =
      [zeroMotion, zeroMotion, zeroMotion] by rfl]
    rw [censorScrubMask]
    rw [show fdSeries 50 [zeroMotion, zeroMotion, zeroMotion] = [0, 0, 0] by
      simp [fdSeries, fdSeriesAux, frameDisplacement, zeroMotion]]
    simp
  rw [hmask]
  refine ⟨by simp, by simp, by simp⟩

/-- **C5 (amended).** Non-steady-state frames are excluded by being dropped
from the data before the mask is built, not by union into the mask: when all
remaining framewise displacements are below threshold, the run's censoring
mask is the all-true mask over the `n - d` frames that survive trimming. -/
theorem censoring_after_trim (d : ℕ) (radius thresh : ℚ)
    (motion : List MotionParams)
    (h : ∀ f ∈ fdSeries radius (motion.drop d), f < thresh) :
    runCensoringMask d radius thresh motion =
      List.replicate (motion.length - d) true := by
  rw [runCensoringMask, censorScrubMask]
  apply List.eq_replicate_iff.mpr
  constructor
  · simp [fdSeries_length]
  · intro b hb
    simp only [List.mem_map] at hb
    obtain ⟨f, hf, rfl⟩ := hb
    simpa using h f hf

/-- Witness for `censoring_after_trim`: 3 zero-motion frames, one trimmed. -/
theorem censoring_after_trim_witness :
    runCensoringMask 1 50 (1 / 5) (List.replicate 3 zeroMotion) =
      List.replicate ((List.replicate 3 zeroMotion).length - 1) true :=
  censoring_after_trim 1 50 (1 / 5) (List.replicate 3 zeroMotion) (by
    intro f hf
    rw [show (List.replicate 3 zeroMotion).drop 1 =
      [zeroMotion, zeroMotion] by rfl] at hf
    rw [show fdSeries 50 [zeroMotion, zeroMotion] = [0, 0] by
      simp [fdSeries, fdSeriesAux, frameDisplacement, zeroMotion]] at hf
    simp at hf
    rw [hf]
    norm_num)

/-- **C6.** Whenever some requested cutoff is at or above the Nyquist
frequency implied by the sampling interval, the validation stage returns a
ValidationError carrying both an offending cutoff and the Nyquist limit; it
never clamps. -/
theorem nyquist_validation_raises (TR : ℚ) (cutoffs : List ℚ) (c : ℚ)
    (hc : c ∈ cutoffs) (h : nyquistFreq TR ≤ c) :
    ∃ coff, nyquistFreq TR ≤ coff ∧
      validateCutoffs TR cutoffs =
        Except.error (.validationError coff (nyquistFreq TR)) := by
  cases hfind : cutoffs.find? (fun x => decide (nyquistFreq TR ≤ x)) with
  | none =>
    exfalso
    have hnone := List.find?_eq_none.mp hfind c hc
    simp at hnone
    exact absurd h (not_le.mpr hnone)
  | some coff =>
    refine ⟨coff, ?_, ?_⟩
    · simpa using List.find?_some hfind
    · rw [validateCutoffs, hfind]

/-- Witness for `nyquist_validation_raises`: TR = 2.0 s gives Nyquist
0.25 Hz; the requested cutoff 0.3 Hz triggers the error. -/
theorem nyquist_validation_raises_witness :
    ∃ coff, nyquistFreq 2 ≤ coff ∧
      validateCutoffs 2 [3 / 10] =
        Except.error (.validationError coff (nyquistFreq 2)) :=
  nyquist_validation_raises 2 [3 / 10] (3 / 10) (by simp)
    (by norm_num [nyquistFreq])

/-- **C7.** When trimming is enabled, `RemoveTR` drops the same number of
leading frames from the signal, the consolidated confounds and the motion
trace, so the frame-count = row-count invariant holds at the stage boundary
and the frame-invariant check passes. -/
theorem removeTR_consistent (n : ℕ) (st : RunTables)
    (hbc : st.bold.length = st.confounds.length)
    (hcm : st.confounds.length = st.motion.length) :
    (removeTR n st).bold.length = (removeTR n st).confounds.length ∧
      (removeTR n st).confounds.length = (removeTR n st).motion.length ∧
      (removeTR n st).bold = st.bold.drop n ∧
      (removeTR n st).confounds = st.confounds.drop n ∧
      (removeTR n st).motion = st.motion.drop n ∧
      checkFrameInvariant (removeTR n st) = Except.ok () := by
  have h1 : (removeTR n st).bold.length = (removeTR n st).confounds.length := by
    simp [removeTR, hbc]
  refine ⟨h1, ?_, rfl, rfl, rfl, ?_⟩
  · simp [removeTR, hcm]
  · rw [checkFrameInvariant, if_pos h1]

/-- Witness for `removeTR_consistent` on a 2-frame run trimmed by 1. -/
theorem removeTR_consistent_witness :
    (removeTR 1 ⟨[[1], [2]], [[0], [0]], List.replicate 2 zeroMotion⟩).bold.length =
        (removeTR 1 ⟨[[1], [2]], [[0], [0]], List.replicate 2 zeroMotion⟩).confounds.length ∧
      (removeTR 1 ⟨[[1], [2]], [[0], [0]], List.replicate 2 zeroMotion⟩).confounds.length =
        (removeTR 1 ⟨[[1], [2]], [[0], [0]], List.replicate 2 zeroMotion⟩).motion.length ∧
      (removeTR 1 ⟨[[1], [2]], [[0], [0]], List.replicate 2 zeroMotion⟩).bold =
        ([[1], [2]] : List (List ℚ)).drop 1 ∧
      (removeTR 1 ⟨[[1], [2]], [[0], [0]], List.replicate 2 zeroMotion⟩).confounds =
        ([[0], [0]] : List (List ℚ)).drop 1 ∧
      (removeTR 1 ⟨[[1], [2]], [[0], [0]], List.replicate 2 zeroMotion⟩).motion =
        (List.replicate 2 zeroMotion).drop 1 ∧
      checkFrameInvariant
        (removeTR 1 ⟨[[1], [2]], [[0], [0]], List.replicate 2 zeroMotion⟩) =
        Except.ok () :=
  removeTR_consistent 1 ⟨[[1], [2]], [[0], [0]], List.replicate 2 zeroMotion⟩
    (by simp) (by simp)

/-- **C2.** The regression engine fits OLS using only the frames where the
censoring mask is true — its inputs are the mask-selected series, so signals
agreeing on the retained frames produce identical regression inputs — and
the residual it produces is orthogonal to every design-matrix column
(all the variance explained by the confound regressors is removed). -/
theorem regression_masked_orthogonal
    (mask : List Bool) (ylist ylist' : List ℚ)
    {m k : ℕ} (X : Matrix (Fin m) (Fin k) ℚ) (y : Fin m → ℚ)
    (hx : ylist.length = mask.length) (hy : ylist'.length = mask.length)
    (hagree : ∀ i, i < mask.length → mask.getD i false = true →
      ylist.getD i 0 = ylist'.getD i 0)
    (hdet : (normalMatrix X).det ≠ 0) :
    censorSeries mask ylist = censorSeries mask ylist' ∧
      X.transpose.mulVec (olsResidual X y) = 0 := by
  refine ⟨censorSeries_congr mask ylist ylist' 0 hx hy hagree, ?_⟩
  have hM : normalMatrix X *
      (((normalMatrix X).det)⁻¹ • (normalMatrix X).adjugate) = 1 := by
    rw [Matrix.mul_smul, Matrix.mul_adjugate, smul_smul,
      inv_mul_cancel₀ hdet, one_smul]
  have hfit : X.transpose.mulVec (X.mulVec (olsBeta X y)) =
      X.transpose.mulVec y := by
    rw [olsBeta]
    simp only [Matrix.mulVec_mulVec]
    rw [← Matrix.mul_assoc]
    rw [show X.transpose * X = normalMatrix X from rfl]
    rw [← Matrix.mul_assoc, hM, Matrix.one_mul]
  rw [olsResidual, Matrix.mulVec_sub, hfit, sub_self]

/-- Witness for `regression_masked_orthogonal`: a 2-frame run whose second
frame is censored (the two signals differ only there), and a one-regressor
design over the single retained frame. -/
theorem regression_masked_orthogonal_witness :
    censorSeries [true, false] ([1, 7] : List ℚ) =
        censorSeries [true, false] ([1, 9] : List ℚ) ∧
      (!![2] : Matrix (Fin 1) (Fin 1) ℚ).transpose.mulVec
        (olsResidual !![2] ![3]) = 0 :=
  regression_masked_orthogonal [true, false] [1, 7] [1, 9] !![2] ![3]
    (by simp) (by simp)
    (by
      intro i hi hm
      simp at hi
      interval_cases i
      · rfl
      · simp at hm)
    (by
      simp [normalMatrix, Matrix.det_fin_one, Matrix.mul_apply,
        Fin.sum_univ_one])

/-- **C3.** Interpolator identity on the kept subset: for every input with
at least two retained frames and a residual row per retained frame, the
full-length interpolated series agrees at every retained frame index with
the regression-residual value assigned to that frame (the value whose rank
equals the number of retained frames before it), and the output has exactly
one value per original frame. -/
theorem interpolation_identity_on_kept (mask : List Bool) (resid : List ℚ)
    (i : ℕ) (hlen : resid.length = mask.count true)
    (htwo : 2 ≤ mask.count true)
    (hi : i < mask.length) (hm : mask.getD i false = true) :
    (interpolateSeries mask resid).getD i 0 =
        resid.getD ((mask.take i).count true) 0 ∧
      (interpolateSeries mask resid).length = mask.length := by
  have hexp : (expandResidual mask resid).length = mask.length :=
    expandResidual_length mask resid
  have hrank : (mask.take i).count true < resid.length := by
    rw [hlen]
    exact count_take_lt mask i hi hm
  have hplace := expandResidual_getD_kept mask resid i hi hm hrank
  constructor
  · rw [interpolateSeries]
    rw [getD_map_range _ _ i (by rw [hexp]; exact hi)]
    simp only [interpAt, hplace]
  · simp [interpolateSeries, hexp]

/-- Witness for `interpolation_identity_on_kept`: 3 frames, middle frame
censored, residual values 4 and 6 on the two retained frames; the retained
frame at index 2 keeps the value 6. -/
theorem interpolation_identity_on_kept_witness :
    (interpolateSeries [true, false, true] [4, 6]).getD 2 0 =
        ([4, 6] : List ℚ).getD
          ((([true, false, true] : List Bool).take 2).count true) 0 ∧
      (interpolateSeries [true, false, true] [4, 6]).length =
        ([true, false, true] : List Bool).length :=
  interpolation_identity_on_kept [true, false, true] [4, 6] 2
    (by rfl) (by decide) (by decide) (by rfl)

/-- **C8.** Disabling the band-pass filter is selected only by the explicit
`bandpass_filter` flag: with the flag false the stage is the identity for
every choice of cutoffs and order, with the flag true the band-pass kernel
is applied for every choice of cutoffs and order, and the application is not
vacuous (a concrete input is genuinely transformed). -/
theorem bandpass_gate_explicit :
    (∀ (TR lp hp : ℚ) (ord : ℕ) (x : List ℚ),
      filteringData false TR lp hp ord x = x) ∧
    (∀ (TR lp hp : ℚ) (ord : ℕ) (x : List ℚ),
      filteringData true TR lp hp ord x =
        butterworthBandpass TR lp hp ord x) ∧
    filteringData true 2 (1 / 4) (1 / 12) 1 [0, 1] ≠ [0, 1] := by
  refine ⟨fun _ _ _ _ _ => rfl, fun _ _ _ _ _ => rfl, ?_⟩
  have hval : filteringData true 2 (1 / 4) (1 / 12) 1 [0, 1] =
      [1 / 16, 1 / 4] := by
    rw [show filteringData true 2 (1 / 4) (1 / 12) 1 [0, 1] =
      butterworthBandpass 2 (1 / 4) (1 / 12) 1 [0, 1] from rfl]
    rw [butterworthBandpass, Function.iterate_one]
    have ha1 : alphaCoeff 2 (1 / 4) = 1 / 2 := by norm_num [alphaCoeff]
    have ha2 : alphaCoeff 2 (1 / 12) = 1 / 4 := by norm_num [alphaCoeff]
    rw [ha1, ha2]
    have hlp1 : lowpassPass (1 / 2) [0, 1] = [1 / 4, 1 / 2] := by
      simp [lowpassPass, smoothForward]
      norm_num
    have hlp2 : lowpassPass (1 / 4) [0, 1] = [3 / 16, 1 / 4] := by
      simp [lowpassPass, smoothForward]
      norm_num
    rw [hlp1, hlp2]
    simp [List.zipWith]
    norm_num
  rw [hval]
  intro h
  have := List.head_eq_of_cons_eq h
  norm_num at this

end XcpD
